import Mathlib

/-!
Verification of the large-audio-file transcription pipeline of
quick-transcriber-ai against its natural-language specification.

The embedding below translates the pipeline core from the source:
  * src/utils/file.ts    — chunkAudioFile, combineChunkResults, estimateProcessingTime
  * src/services/openai.ts — transcribeAudio, transcribeWithCompression,
                              transcribeAudioInBatches, transcribeSingleFile

Modelling conventions:
  * JavaScript floating-point durations/progress values are modelled as exact
    rationals (ℚ); byte counts and indices as ℕ.
  * The remote transcription endpoint, the FFmpeg encoder, the audio-metadata
    reader and the wall clock are external effects; they enter the model as
    oracle parameters (per-chunk call outcomes, compression step success flags,
    an elapsed-time function, the audio duration).
  * A thrown JavaScript value is modelled as a `TranscriptionError` record; the
    `fromErrorInstance` flag records whether the thrown value was an
    `instanceof Error` (the batch wrapper inspects this).
  * `Array.prototype.sort` with comparator `a.chunk.index - b.chunk.index` is a
    stable sort; it is modelled by `List.insertionSort` on `index ≤ index`,
    which is likewise stable.
  * Credential/file-presence validation in `transcribeAudio` is elided: every
    claim quantifies over post-validation behaviour.
-/

/-! ### Characters and strings (JS `trim`, `includes`, `replace(/\s+/g, ' ')`) -/

/-- Whitespace test used to model the character class of JS `trim` and `\s`. -/
def isWsChar (c : Char) : Bool :=
  c = ' ' ∨ c = '\t' ∨ c = '\n' ∨ c = '\r'

/-- Model of `String.prototype.trim`: drop whitespace from both ends. -/
def trimChars (l : List Char) : List Char :=
  ((l.dropWhile isWsChar).reverse.dropWhile isWsChar).reverse

/-- Model of `String.prototype.trim` on strings. -/
def jsTrim (s : String) : String := ⟨trimChars s.data⟩

/-- Auxiliary for `replace(/\s+/g, ' ')`: the flag records whether the previous
character was part of a whitespace run already replaced by a single space. -/
def collapseWsAux : Bool → List Char → List Char
  | _, [] => []
  | prevWs, c :: rest =>
    if isWsChar c then
      if prevWs then collapseWsAux true rest
      else ' ' :: collapseWsAux true rest
    else c :: collapseWsAux false rest

/-- Model of `replace(/\s+/g, ' ')`: each maximal whitespace run becomes one space. -/
def collapseWsChars (l : List Char) : List Char := collapseWsAux false l

/-- Does `pat` occur at the head of `l`? -/
def listStartsWith : List Char → List Char → Bool
  | [], _ => true
  | _ :: _, [] => false
  | p :: ps, h :: hs => p = h && listStartsWith ps hs

/-- Does `pat` occur as a contiguous sublist of `l`? -/
def listContainsSub (pat : List Char) : List Char → Bool
  | [] => listStartsWith pat []
  | h :: t => listStartsWith pat (h :: t) || listContainsSub pat t

/-- Model of JS `hay.includes(pat)`. -/
def strIncludes (hay pat : String) : Bool := listContainsSub pat.data hay.data

/-! ### Error values and the error classifier of the batch loop -/

/-- A thrown JavaScript value: the `message` and `type` fields of the object and
whether the thrown value was an `instanceof Error`. -/
structure TranscriptionError where
  message : String
  etype : String
  fromErrorInstance : Bool
deriving DecidableEq, Repr

/-- openai.ts line 323: `chunkError.message?.includes('Invalid file format') ||
chunkError.message?.includes('file format')` — the tolerate-vs-abort classifier. -/
def isFormatErrorMsg (m : String) : Bool :=
  strIncludes m "Invalid file format" || strIncludes m "file format"

/-- openai.ts lines 389-392: the catch-all of `transcribeAudioInBatches` rethrows
`{message: Batch transcription failed: (error instanceof Error ? error.message
: Unknown error), type: api_error}`. -/
def wrapBatchError (e : TranscriptionError) : TranscriptionError :=
  { message := "Batch transcription failed: " ++
      (if e.fromErrorInstance then e.message else "Unknown error"),
    etype := "api_error",
    fromErrorInstance := false }

/-! ### Progress events (BatchProgress) -/

/-- The four progress phases of `ChunkingProgress`/`BatchProgress`. -/
inductive Phase where
  | analyzing
  | chunking
  | processing
  | combining
deriving DecidableEq, Repr

/-- Position of a phase in the forward order analyzing → chunking → processing
→ combining. -/
def Phase.rank : Phase → ℕ
  | .analyzing => 0
  | .chunking => 1
  | .processing => 2
  | .combining => 3

/-- One emitted `BatchProgress` object. -/
structure BatchProgress where
  phase : Phase
  currentChunk : ℕ
  totalChunks : ℕ
  progress : ℚ
  estimatedTimeRemaining : Option ℤ
deriving Repr

/-- Boolean check that a trace of events never moves to an earlier phase: once
a phase is left it is never emitted again (the phase ranks are
non-decreasing along the trace). -/
def phasesForward : List BatchProgress → Bool
  | [] => true
  | [_] => true
  | a :: b :: t => decide (a.phase.rank ≤ b.phase.rank) && phasesForward (b :: t)

/-! ### ChunkingStrategy (file.ts `chunkAudioFile`) -/

/-- An `AudioChunk` of file.ts, with the chunk's `File` represented by its byte
payload. -/
structure AudioChunk where
  payload : List ℕ
  index : ℕ
  startTime : ℚ
  duration : ℚ

/-- file.ts line 167: `Math.ceil(file.size / maxChunkSize)`. -/
def numChunks (fileSize maxChunkSize : ℕ) : ℕ :=
  (fileSize + maxChunkSize - 1) / maxChunkSize

/-- file.ts lines 167-231: split the file bytes into `numChunks` byte ranges of
`Math.floor(size / N)` bytes each, the final chunk running to the end of the
buffer; chunk `i` carries `startTime = i * (duration / N)` and
`duration = duration / N`.  The audio duration `dur` is the value produced by
the external `getAudioDuration` call. -/
def chunkAudioFile (bytes : List ℕ) (maxChunkSize : ℕ) (dur : ℚ) : List AudioChunk :=
  let L := bytes.length
  let N := numChunks L maxChunkSize
  let chunkDuration : ℚ := dur / (N : ℚ)
  let chunkSize := L / N
  (List.range N).map fun i =>
    let s := i * chunkSize
    let e := if i = N - 1 then L else (i + 1) * chunkSize
    { payload := (bytes.drop s).take (e - s)
      index := i
      startTime := (i : ℚ) * chunkDuration
      duration := chunkDuration }

/-- The view of an `AudioChunk` consumed by openai.ts: the chunk file's byte
size plus the index/timing metadata (`chunk.file.size`, `chunk.index`, ...). -/
structure ChunkMeta where
  size : ℕ
  index : ℕ
  startTime : ℚ
  duration : ℚ
deriving DecidableEq, Repr

/-- Metadata view of an `AudioChunk`. -/
def AudioChunk.toMeta (c : AudioChunk) : ChunkMeta :=
  ⟨c.payload.length, c.index, c.startTime, c.duration⟩

/-- The chunk metadata produced by `chunkAudioFile` on a file of `fileSize`
bytes, computed arithmetically (payload length of chunk `i` is
`end - start` of its byte range).  `chunkMetas_eq_chunkAudioFile` proves this
agrees with the byte-level `chunkAudioFile`. -/
def chunkMetas (fileSize maxChunkSize : ℕ) (dur : ℚ) : List ChunkMeta :=
  let N := numChunks fileSize maxChunkSize
  let chunkDuration : ℚ := dur / (N : ℚ)
  let chunkSize := fileSize / N
  (List.range N).map fun i =>
    { size := (if i = N - 1 then fileSize else (i + 1) * chunkSize) - i * chunkSize
      index := i
      startTime := (i : ℚ) * chunkDuration
      duration := chunkDuration }

/-- file.ts lines 158-230: progress events emitted by `chunkAudioFile` —
`analyzing` once, `chunking` before the loop, and one `chunking` event per
created chunk. -/
def chunkingEvents (n : ℕ) : List BatchProgress :=
  ⟨.analyzing, 0, 0, 0, none⟩ ::
  ⟨.chunking, 0, n, 0, none⟩ ::
  (List.range n).map fun i =>
    ⟨.chunking, i + 1, n, ((i : ℚ) + 1) / (n : ℚ) * 100, none⟩

/-- file.ts lines 302-306: `Math.ceil(totalDuration * 0.5)`. -/
def estimateProcessingTime (chunks : List ChunkMeta) : ℤ :=
  ⌈((chunks.map ChunkMeta.duration).sum * (1 / 2 : ℚ))⌉

/-! ### ResultCombiner (file.ts `combineChunkResults`) -/

/-- Comparator model for `(a, b) => a.chunk.index - b.chunk.index` used with the
stable `Array.prototype.sort`. -/
def chunkPairLE (a b : ChunkMeta × String) : Prop := a.1.index ≤ b.1.index

instance : DecidableRel chunkPairLE := fun a b => Nat.decLe a.1.index b.1.index

/-- file.ts lines 251-297: length guard, stable re-sort by chunk index, trim,
drop empties, join with a single space, collapse whitespace runs, trim. -/
def combineChunkResults (chunks : List ChunkMeta) (transcriptions : List String) :
    Except String String :=
  if chunks.length ≠ transcriptions.length then
    .error "Chunk and transcription arrays must have the same length"
  else
    let sortedResults := List.insertionSort chunkPairLE (chunks.zip transcriptions)
    let pieces := (sortedResults.map fun r => jsTrim r.2).filter fun t => decide (0 < t.length)
    .ok ⟨trimChars (collapseWsChars (List.intercalate [' '] (pieces.map String.data)))⟩

/-- Spec-side restatement of the combination algorithm, written from the words
of spec §4.5 for refinement comparison: trim each transcript, fully drop the
ones empty after trimming, join the survivors with one space, collapse
whitespace runs to one space, trim the final string. -/
def combineSpecSide (transcriptions : List String) : String :=
  let survivors := (transcriptions.map jsTrim).filter fun t => decide (t ≠ "")
  ⟨trimChars (collapseWsChars (List.intercalate [' '] (survivors.map String.data)))⟩

/-! ### BatchTranscriber (openai.ts `transcribeAudioInBatches`) -/

/-- The outcome of one remote `transcribeSingleFile` call, supplied by an
oracle: either the returned text or the thrown error. -/
inductive CallOutcome where
  | ok (text : String)
  | err (e : TranscriptionError)

/-- openai.ts lines 333-354: the progress event emitted after chunk `i`
completes (success or tolerated failure): `currentChunk = i+1`,
`progress = (i+1)/N*100`, `estimatedTimeRemaining =
Math.ceil(elapsed/(i+1) * (N-(i+1)))` with `elapsed` read from the wall
clock. -/
def chunkDoneEvent (elapsed : ℕ → ℚ) (n i : ℕ) : BatchProgress :=
  ⟨.processing, i + 1, n, ((i : ℚ) + 1) / (n : ℚ) * 100,
    some ⌈elapsed i / ((i : ℚ) + 1) * ((n - (i + 1) : ℕ) : ℚ)⌉⟩

/-- Accumulated output of the per-chunk loop: the progress events emitted, the
indices of chunks actually submitted to the remote endpoint, and either the
transcript list or the first fatal error. -/
structure BatchLoopOut where
  events : List BatchProgress
  calls : List ℕ
  result : Except TranscriptionError (List String)

/-- openai.ts lines 294-355: the per-chunk loop.  A chunk smaller than 1000
bytes is skipped (empty transcript, no remote call, and — because of the
`continue` — no progress event).  A remote failure whose message passes
`isFormatErrorMsg` is tolerated (empty transcript, loop continues); any other
failure aborts the loop with that error. -/
def batchLoop (oracle : ℕ → CallOutcome) (elapsed : ℕ → ℚ) (n : ℕ) :
    List ℕ → ℕ → BatchLoopOut
  | [], _ => ⟨[], [], .ok []⟩
  | s :: rest, i =>
    if s < 1000 then
      let r := batchLoop oracle elapsed n rest (i + 1)
      ⟨r.events, r.calls, r.result.map fun ts => "" :: ts⟩
    else
      match oracle i with
      | .ok t =>
        let r := batchLoop oracle elapsed n rest (i + 1)
        ⟨chunkDoneEvent elapsed n i :: r.events, i :: r.calls, r.result.map fun ts => t :: ts⟩
      | .err e =>
        if isFormatErrorMsg e.message then
          let r := batchLoop oracle elapsed n rest (i + 1)
          ⟨chunkDoneEvent elapsed n i :: r.events, i :: r.calls, r.result.map fun ts => "" :: ts⟩
        else
          ⟨[], [i], .error e⟩

/-- openai.ts lines 286-355: the initial `processing` event (line 286) followed
by the loop. -/
def runChunkLoop (oracle : ℕ → CallOutcome) (elapsed : ℕ → ℚ) (sizes : List ℕ)
    (est0 : ℤ) : BatchLoopOut :=
  let r := batchLoop oracle elapsed sizes.length sizes 0
  ⟨⟨.processing, 0, sizes.length, 0, some est0⟩ :: r.events, r.calls, r.result⟩

/-- The transcript the loop records for a chunk of size `s` at index `i` when
the loop completes: `""` for a skipped chunk, the returned text on success,
`""` on a tolerated format failure. -/
def expectedTranscript (oracle : ℕ → CallOutcome) (s i : ℕ) : String :=
  if s < 1000 then ""
  else match oracle i with
    | .ok t => t
    | .err _ => ""

/-- Transcripts of a completed loop over `sizes`, starting at index `i`. -/
def expectedTranscripts (oracle : ℕ → CallOutcome) : List ℕ → ℕ → List String
  | [], _ => []
  | s :: rest, i => expectedTranscript oracle s i :: expectedTranscripts oracle rest (i + 1)

/-- Indices (from `i`) of the chunks the loop does not skip (size ≥ 1000). -/
def bigChunkIdxs : List ℕ → ℕ → List ℕ
  | [], _ => []
  | s :: rest, i => if s < 1000 then bigChunkIdxs rest (i + 1) else i :: bigChunkIdxs rest (i + 1)

/-- openai.ts lines 255-394: `transcribeAudioInBatches` — chunk the file, run
the per-chunk loop, emit the `combining` event, combine, and wrap any escaping
error as a `Batch transcription failed` api_error.  Returns the full event
trace and the result (the combined text stands for the returned
`TranscriptionResult`). -/
def transcribeAudioInBatches (fileSize maxChunkSize : ℕ) (dur : ℚ)
    (oracle : ℕ → CallOutcome) (elapsed : ℕ → ℚ) :
    List BatchProgress × Except TranscriptionError String :=
  let metas := chunkMetas fileSize maxChunkSize dur
  let r := runChunkLoop oracle elapsed (metas.map ChunkMeta.size) (estimateProcessingTime metas)
  let evs := chunkingEvents (numChunks fileSize maxChunkSize) ++ r.events
  match r.result with
  | .error e => (evs, .error (wrapBatchError e))
  | .ok ts =>
    let evs2 := evs ++ [⟨.combining, metas.length, metas.length, 100, none⟩]
    match combineChunkResults metas ts with
    | .ok text => (evs2, .ok text)
    | .error m => (evs2, .error (wrapBatchError ⟨m, "js_error", true⟩))

/-! ### CompressionStrategy (openai.ts `transcribeWithCompression`) -/

/-- Outcomes of the external compression steps and of the direct transcription
call on the compressed file: `loadOk` — FFmpeg import/load (line 149),
`writeOk` — staging the input (lines 144-161), `execOk` — the transform
(line 172), `readOk` — reading the output (line 193), `compressedCall` — the
`transcribeSingleFile` call on the compressed file (line 218). -/
structure CompressEnv where
  loadOk : Bool
  writeOk : Bool
  execOk : Bool
  readOk : Bool
  compressedCall : Except TranscriptionError String
deriving Repr

/-- Progress checkpoint of the compression route (`totalChunks = 1`). -/
def compressEvent (p : Phase) (cc : ℕ) (pr : ℚ) : BatchProgress :=
  ⟨p, cc, 1, pr, none⟩

/-- openai.ts lines 126-250: attempt compression, emitting the fixed milestone
events; the catch-all at lines 243-249 routes ANY failure of the try block —
including a failure of the direct transcription of the compressed file — to
`transcribeAudioInBatches`. -/
def transcribeWithCompression (ce : CompressEnv) (fileSize maxChunkSize : ℕ) (dur : ℚ)
    (oracle : ℕ → CallOutcome) (elapsed : ℕ → ℚ) :
    List BatchProgress × Except TranscriptionError String :=
  let fallback := fun (pre : List BatchProgress) =>
    let b := transcribeAudioInBatches fileSize maxChunkSize dur oracle elapsed
    (pre ++ b.1, b.2)
  if ce.loadOk = false then
    fallback [compressEvent .analyzing 0 0]
  else if ce.writeOk = false then
    fallback [compressEvent .analyzing 0 0, compressEvent .processing 0 25]
  else if ce.execOk = false then
    fallback [compressEvent .analyzing 0 0, compressEvent .processing 0 25,
      compressEvent .processing 0 50]
  else if ce.readOk = false then
    fallback [compressEvent .analyzing 0 0, compressEvent .processing 0 25,
      compressEvent .processing 0 50, compressEvent .processing 0 75]
  else
    match ce.compressedCall with
    | .ok t =>
      ([compressEvent .analyzing 0 0, compressEvent .processing 0 25,
        compressEvent .processing 0 50, compressEvent .processing 0 75,
        compressEvent .combining 1 90, compressEvent .combining 1 100], .ok t)
    | .error _ =>
      fallback [compressEvent .analyzing 0 0, compressEvent .processing 0 25,
        compressEvent .processing 0 50, compressEvent .processing 0 75,
        compressEvent .combining 1 90]

/-! ### SizeClassifier and the pipeline entry (openai.ts `transcribeAudio`) -/

/-- openai.ts line 7: `25 * 1024 * 1024`. -/
def maxFileSize : ℕ := 25 * 1024 * 1024

/-- The external world of one pipeline invocation. -/
structure PipelineEnv where
  fileSize : ℕ
  duration : ℚ
  compress : CompressEnv
  oracle : ℕ → CallOutcome
  elapsed : ℕ → ℚ
  directCall : Except TranscriptionError String

/-- openai.ts lines 10-67: route to compression when
`file.size > maxFileSize`, else the direct single-file path (which emits no
progress events). -/
def transcribeAudio (env : PipelineEnv) : List BatchProgress × Except TranscriptionError String :=
  if maxFileSize < env.fileSize then
    transcribeWithCompression env.compress env.fileSize maxFileSize env.duration
      env.oracle env.elapsed
  else
    ([], env.directCall)

/-! ### Generic instances and bridges -/

deriving instance DecidableEq for Except

/-- The boolean trace check agrees with `List.Chain'` on phase ranks. -/
theorem phasesForward_iff_chain' :
    ∀ l : List BatchProgress,
      phasesForward l = true ↔
        List.Chain' (fun a b : BatchProgress => a.phase.rank ≤ b.phase.rank) l
  | [] => by simp [phasesForward]
  | [_] => by simp [phasesForward]
  | a :: b :: t => by
    rw [phasesForward, Bool.and_eq_true, decide_eq_true_iff, List.chain'_cons,
      phasesForward_iff_chain' (b :: t)]

/-! ### Lemmas about the per-chunk loop -/

/-- Whether the loop aborts at a chunk of size `s` whose absolute index is
`idx`: the chunk is large enough to be submitted and the remote call throws a
non-format error. -/
def chunkFatal (oracle : ℕ → CallOutcome) (s idx : ℕ) : Prop :=
  1000 ≤ s ∧ ∃ e, oracle idx = .err e ∧ isFormatErrorMsg e.message = false

/-- Executable check for `chunkFatal`. -/
def chunkFatalCheck (oracle : ℕ → CallOutcome) (s idx : ℕ) : Bool :=
  decide (1000 ≤ s) &&
    (match oracle idx with
      | .ok _ => false
      | .err e => !isFormatErrorMsg e.message)

instance (oracle : ℕ → CallOutcome) (s idx : ℕ) : Decidable (chunkFatal oracle s idx) :=
  decidable_of_iff (chunkFatalCheck oracle s idx = true) (by
    unfold chunkFatalCheck chunkFatal
    cases h : oracle idx <;> simp [h])

theorem batchLoop_nil (oracle : ℕ → CallOutcome) (elapsed : ℕ → ℚ) (n i : ℕ) :
    batchLoop oracle elapsed n [] i = ⟨[], [], .ok []⟩ := rfl

theorem batchLoop_cons_skip (oracle : ℕ → CallOutcome) (elapsed : ℕ → ℚ) (n : ℕ)
    {s : ℕ} (rest : List ℕ) (i : ℕ) (hs : s < 1000) :
    batchLoop oracle elapsed n (s :: rest) i =
      ⟨(batchLoop oracle elapsed n rest (i + 1)).events,
        (batchLoop oracle elapsed n rest (i + 1)).calls,
        (batchLoop oracle elapsed n rest (i + 1)).result.map fun ts => "" :: ts⟩ := by
  rw [batchLoop, if_pos hs]

theorem batchLoop_cons_ok (oracle : ℕ → CallOutcome) (elapsed : ℕ → ℚ) (n : ℕ)
    {s : ℕ} (rest : List ℕ) {i : ℕ} (hs : ¬ s < 1000) {t : String}
    (ho : oracle i = .ok t) :
    batchLoop oracle elapsed n (s :: rest) i =
      ⟨chunkDoneEvent elapsed n i :: (batchLoop oracle elapsed n rest (i + 1)).events,
        i :: (batchLoop oracle elapsed n rest (i + 1)).calls,
        (batchLoop oracle elapsed n rest (i + 1)).result.map fun ts => t :: ts⟩ := by
  rw [batchLoop, if_neg hs, ho]

theorem batchLoop_cons_fmt (oracle : ℕ → CallOutcome) (elapsed : ℕ → ℚ) (n : ℕ)
    {s : ℕ} (rest : List ℕ) {i : ℕ} (hs : ¬ s < 1000) {e : TranscriptionError}
    (ho : oracle i = .err e) (hf : isFormatErrorMsg e.message = true) :
    batchLoop oracle elapsed n (s :: rest) i =
      ⟨chunkDoneEvent elapsed n i :: (batchLoop oracle elapsed n rest (i + 1)).events,
        i :: (batchLoop oracle elapsed n rest (i + 1)).calls,
        (batchLoop oracle elapsed n rest (i + 1)).result.map fun ts => "" :: ts⟩ := by
  rw [batchLoop, if_neg hs, ho]
  simp [hf]

theorem batchLoop_cons_fatal (oracle : ℕ → CallOutcome) (elapsed : ℕ → ℚ) (n : ℕ)
    {s : ℕ} (rest : List ℕ) {i : ℕ} (hs : ¬ s < 1000) {e : TranscriptionError}
    (ho : oracle i = .err e) (hf : isFormatErrorMsg e.message = false) :
    batchLoop oracle elapsed n (s :: rest) i = ⟨[], [i], .error e⟩ := by
  rw [batchLoop, if_neg hs, ho]
  simp [hf]

theorem expectedTranscripts_length (oracle : ℕ → CallOutcome) :
    ∀ (sizes : List ℕ) (i : ℕ), (expectedTranscripts oracle sizes i).length = sizes.length
  | [], _ => rfl
  | _ :: rest, i => by
    simp [expectedTranscripts, expectedTranscripts_length oracle rest (i + 1)]

theorem expectedTranscripts_append (oracle : ℕ → CallOutcome) :
    ∀ (l₁ l₂ : List ℕ) (i : ℕ),
      expectedTranscripts oracle (l₁ ++ l₂) i =
        expectedTranscripts oracle l₁ i ++ expectedTranscripts oracle l₂ (i + l₁.length)
  | [], l₂, i => by simp [expectedTranscripts]
  | s :: rest, l₂, i => by
    have h : i + 1 + rest.length = i + (rest.length + 1) := by omega
    simp only [List.cons_append, expectedTranscripts, List.length_cons, List.append_eq]
    rw [expectedTranscripts_append oracle rest l₂ (i + 1), h]

/-- A completed loop returns exactly the expected transcript list: text on
success, `""` for skipped chunks and tolerated format failures. -/
theorem batchLoop_result_ok (oracle : ℕ → CallOutcome) (elapsed : ℕ → ℚ) (n : ℕ) :
    ∀ (sizes : List ℕ) (i : ℕ) (ts : List String),
      (batchLoop oracle elapsed n sizes i).result = .ok ts →
      ts = expectedTranscripts oracle sizes i
  | [], i, ts, h => by
    rw [batchLoop_nil] at h
    cases h
    rfl
  | s :: rest, i, ts, h => by
    by_cases hs : s < 1000
    · rw [batchLoop_cons_skip oracle elapsed n rest i hs] at h
      cases hr : (batchLoop oracle elapsed n rest (i + 1)).result with
      | error e => simp [hr, Except.map] at h
      | ok ts' =>
        simp only [hr, Except.map] at h
        cases h
        simp only [expectedTranscripts, expectedTranscript, if_pos hs]
        rw [batchLoop_result_ok oracle elapsed n rest (i + 1) ts' hr]
    · cases ho : oracle i with
      | ok t =>
        rw [batchLoop_cons_ok oracle elapsed n rest hs ho] at h
        cases hr : (batchLoop oracle elapsed n rest (i + 1)).result with
        | error e => simp [hr, Except.map] at h
        | ok ts' =>
          simp only [hr, Except.map] at h
          cases h
          simp only [expectedTranscripts, expectedTranscript, if_neg hs, ho]
          rw [batchLoop_result_ok oracle elapsed n rest (i + 1) ts' hr]
      | err e =>
        cases hf : isFormatErrorMsg e.message with
        | true =>
          rw [batchLoop_cons_fmt oracle elapsed n rest hs ho hf] at h
          cases hr : (batchLoop oracle elapsed n rest (i + 1)).result with
          | error e' => simp [hr, Except.map] at h
          | ok ts' =>
            simp only [hr, Except.map] at h
            cases h
            simp only [expectedTranscripts, expectedTranscript, if_neg hs, ho]
            rw [batchLoop_result_ok oracle elapsed n rest (i + 1) ts' hr]
        | false =>
          rw [batchLoop_cons_fatal oracle elapsed n rest hs ho hf] at h
          exact absurd h (by simp)

/-- Every submitted index belongs to a chunk of the list that is at least 1000
bytes, positioned at offset `c - i`. -/
theorem batchLoop_calls_mem (oracle : ℕ → CallOutcome) (elapsed : ℕ → ℚ) (n : ℕ) :
    ∀ (sizes : List ℕ) (i : ℕ) (c : ℕ), c ∈ (batchLoop oracle elapsed n sizes i).calls →
      i ≤ c ∧ c - i < sizes.length ∧ 1000 ≤ sizes.getD (c - i) 0
  | [], i, c, h => absurd h (by rw [batchLoop_nil]; simp)
  | s :: rest, i, c, h => by
    by_cases hs : s < 1000
    · rw [batchLoop_cons_skip oracle elapsed n rest i hs] at h
      have ih := batchLoop_calls_mem oracle elapsed n rest (i + 1) c h
      have heq : c - i = (c - (i + 1)) + 1 := by omega
      refine ⟨by omega, by simp only [List.length_cons]; omega, ?_⟩
      rw [heq]
      simpa using ih.2.2
    · have hbig : 1000 ≤ s := by omega
      cases ho : oracle i with
      | ok t =>
        rw [batchLoop_cons_ok oracle elapsed n rest hs ho] at h
        rcases List.mem_cons.mp h with hc | hc
        · subst hc
          simp [hbig]
        · have ih := batchLoop_calls_mem oracle elapsed n rest (i + 1) c hc
          have heq : c - i = (c - (i + 1)) + 1 := by omega
          refine ⟨by omega, by simp only [List.length_cons]; omega, ?_⟩
          rw [heq]
          simpa using ih.2.2
      | err e =>
        cases hf : isFormatErrorMsg e.message with
        | true =>
          rw [batchLoop_cons_fmt oracle elapsed n rest hs ho hf] at h
          rcases List.mem_cons.mp h with hc | hc
          · subst hc
            simp [hbig]
          · have ih := batchLoop_calls_mem oracle elapsed n rest (i + 1) c hc
            have heq : c - i = (c - (i + 1)) + 1 := by omega
            refine ⟨by omega, by simp only [List.length_cons]; omega, ?_⟩
            rw [heq]
            simpa using ih.2.2
        | false =>
          rw [batchLoop_cons_fatal oracle elapsed n rest hs ho hf] at h
          rcases List.mem_cons.mp h with hc | hc
          · subst hc
            simp [hbig]
          · exact absurd hc (by simp)

/-- Every event the loop emits is a `processing`-phase event. -/
theorem batchLoop_events_phase (oracle : ℕ → CallOutcome) (elapsed : ℕ → ℚ) (n : ℕ) :
    ∀ (sizes : List ℕ) (i : ℕ) (e : BatchProgress),
      e ∈ (batchLoop oracle elapsed n sizes i).events → e.phase = .processing
  | [], i, e, h => absurd h (by rw [batchLoop_nil]; simp)
  | s :: rest, i, e, h => by
    by_cases hs : s < 1000
    · rw [batchLoop_cons_skip oracle elapsed n rest i hs] at h
      exact batchLoop_events_phase oracle elapsed n rest (i + 1) e h
    · cases ho : oracle i with
      | ok t =>
        rw [batchLoop_cons_ok oracle elapsed n rest hs ho] at h
        rcases List.mem_cons.mp h with hc | hc
        · subst hc; rfl
        · exact batchLoop_events_phase oracle elapsed n rest (i + 1) e hc
      | err er =>
        cases hf : isFormatErrorMsg er.message with
        | true =>
          rw [batchLoop_cons_fmt oracle elapsed n rest hs ho hf] at h
          rcases List.mem_cons.mp h with hc | hc
          · subst hc; rfl
          · exact batchLoop_events_phase oracle elapsed n rest (i + 1) e hc
        | false =>
          rw [batchLoop_cons_fatal oracle elapsed n rest hs ho hf] at h
          exact absurd h (by simp)

/-- On a completed run, the loop's events are exactly one `chunkDoneEvent` per
non-skipped chunk, in index order. -/
theorem batchLoop_events_of_ok (oracle : ℕ → CallOutcome) (elapsed : ℕ → ℚ) (n : ℕ) :
    ∀ (sizes : List ℕ) (i : ℕ) (ts : List String),
      (batchLoop oracle elapsed n sizes i).result = .ok ts →
      (batchLoop oracle elapsed n sizes i).events =
        (bigChunkIdxs sizes i).map (chunkDoneEvent elapsed n)
  | [], i, ts, _ => by rw [batchLoop_nil]; rfl
  | s :: rest, i, ts, h => by
    by_cases hs : s < 1000
    · rw [batchLoop_cons_skip oracle elapsed n rest i hs] at h ⊢
      simp only [bigChunkIdxs, if_pos hs]
      cases hr : (batchLoop oracle elapsed n rest (i + 1)).result with
      | error e => rw [hr] at h; simp [Except.map] at h
      | ok ts' => exact batchLoop_events_of_ok oracle elapsed n rest (i + 1) ts' hr
    · cases ho : oracle i with
      | ok t =>
        rw [batchLoop_cons_ok oracle elapsed n rest hs ho] at h ⊢
        simp only [bigChunkIdxs, if_neg hs, List.map_cons]
        cases hr : (batchLoop oracle elapsed n rest (i + 1)).result with
        | error e => rw [hr] at h; simp [Except.map] at h
        | ok ts' =>
          rw [batchLoop_events_of_ok oracle elapsed n rest (i + 1) ts' hr]
      | err er =>
        cases hf : isFormatErrorMsg er.message with
        | true =>
          rw [batchLoop_cons_fmt oracle elapsed n rest hs ho hf] at h ⊢
          simp only [bigChunkIdxs, if_neg hs, List.map_cons]
          cases hr : (batchLoop oracle elapsed n rest (i + 1)).result with
          | error e => rw [hr] at h; simp [Except.map] at h
          | ok ts' =>
            rw [batchLoop_events_of_ok oracle elapsed n rest (i + 1) ts' hr]
        | false =>
          rw [batchLoop_cons_fatal oracle elapsed n rest hs ho hf] at h
          exact absurd h (by simp)

/-- Elements of `bigChunkIdxs sizes i` lie in `[i, i + sizes.length)`. -/
theorem bigChunkIdxs_mem_bounds :
    ∀ (sizes : List ℕ) (i x : ℕ), x ∈ bigChunkIdxs sizes i → i ≤ x ∧ x < i + sizes.length
  | [], i, x, h => absurd h (by simp [bigChunkIdxs])
  | s :: rest, i, x, h => by
    rw [bigChunkIdxs] at h
    by_cases hs : s < 1000
    · rw [if_pos hs] at h
      have := bigChunkIdxs_mem_bounds rest (i + 1) x h
      constructor <;> [omega; (simp only [List.length_cons]; omega)]
    · rw [if_neg hs] at h
      rcases List.mem_cons.mp h with hc | hc
      · subst hc
        simp
      · have := bigChunkIdxs_mem_bounds rest (i + 1) x hc
        constructor <;> [omega; (simp only [List.length_cons]; omega)]

/-- The non-skipped indices are strictly increasing. -/
theorem bigChunkIdxs_chain :
    ∀ (sizes : List ℕ) (i : ℕ), List.Chain' (· < ·) (bigChunkIdxs sizes i)
  | [], i => by simp [bigChunkIdxs]
  | s :: rest, i => by
    rw [bigChunkIdxs]
    by_cases hs : s < 1000
    · rw [if_pos hs]
      exact bigChunkIdxs_chain rest (i + 1)
    · rw [if_neg hs]
      refine List.chain'_cons'.mpr ⟨?_, bigChunkIdxs_chain rest (i + 1)⟩
      intro y hy
      have := bigChunkIdxs_mem_bounds rest (i + 1) y (List.mem_of_mem_head? hy)
      omega

/-- When no chunk is skipped, the non-skipped indices are all of
`i, i+1, ..., i + sizes.length - 1`. -/
theorem bigChunkIdxs_all_big :
    ∀ (sizes : List ℕ) (i : ℕ), (∀ s ∈ sizes, 1000 ≤ s) →
      bigChunkIdxs sizes i = (List.range sizes.length).map (i + ·)
  | [], i, _ => by simp [bigChunkIdxs]
  | s :: rest, i, h => by
    rw [bigChunkIdxs, if_neg (by have := h s (by simp); omega)]
    rw [bigChunkIdxs_all_big rest (i + 1) (fun x hx => h x (by simp [hx]))]
    simp only [List.length_cons, List.range_succ_eq_map, List.map_cons, List.map_map]
    refine List.cons_eq_cons.mpr ⟨by omega, ?_⟩
    refine List.map_congr_left fun x _ => ?_
    simp only [Function.comp_apply]
    omega

/-- If no chunk before position `pre.length` is fatal and the chunk there is
fatal, the loop aborts with exactly that chunk's error and submits no chunk
past it. -/
theorem batchLoop_fatal (oracle : ℕ → CallOutcome) (elapsed : ℕ → ℚ) (n : ℕ) :
    ∀ (pre : List ℕ) (s : ℕ) (rest : List ℕ) (i : ℕ) (e : TranscriptionError),
      (∀ k, k < pre.length → ¬ chunkFatal oracle (pre.getD k 0) (i + k)) →
      ¬ s < 1000 → oracle (i + pre.length) = .err e →
      isFormatErrorMsg e.message = false →
      (batchLoop oracle elapsed n (pre ++ s :: rest) i).result = .error e ∧
      ∀ c ∈ (batchLoop oracle elapsed n (pre ++ s :: rest) i).calls, c ≤ i + pre.length
  | [], s, rest, i, e, _, hs, ho, hf => by
    rw [List.nil_append, batchLoop_cons_fatal oracle elapsed n rest hs (by simpa using ho) hf]
    exact ⟨rfl, by simp⟩
  | p :: pre', s, rest, i, e, h, hs, ho, hf => by
    have hlen : i + (p :: pre').length = i + 1 + pre'.length := by
      simp only [List.length_cons]; omega
    have ho' : oracle (i + 1 + pre'.length) = .err e := by rw [← hlen]; exact ho
    have h' : ∀ k, k < pre'.length → ¬ chunkFatal oracle (pre'.getD k 0) (i + 1 + k) := by
      intro k hk
      have := h (k + 1) (by simp; omega)
      simpa [Nat.add_assoc, Nat.add_comm 1 k] using this
    have ih := batchLoop_fatal oracle elapsed n pre' s rest (i + 1) e h' hs ho' hf
    have hp := h 0 (by simp)
    simp only [List.getD_cons_zero, Nat.add_zero] at hp
    rw [List.cons_append]
    by_cases hps : p < 1000
    · rw [batchLoop_cons_skip oracle elapsed n (pre' ++ s :: rest) i hps]
      refine ⟨by rw [ih.1]; rfl, ?_⟩
      intro c hc
      have := ih.2 c hc
      omega
    · cases hop : oracle i with
      | ok t =>
        rw [batchLoop_cons_ok oracle elapsed n (pre' ++ s :: rest) hps hop]
        refine ⟨by rw [ih.1]; rfl, ?_⟩
        intro c hc
        rcases List.mem_cons.mp hc with hc | hc
        · omega
        · have := ih.2 c hc
          omega
      | err e' =>
        cases hfe : isFormatErrorMsg e'.message with
        | true =>
          rw [batchLoop_cons_fmt oracle elapsed n (pre' ++ s :: rest) hps hop hfe]
          refine ⟨by rw [ih.1]; rfl, ?_⟩
          intro c hc
          rcases List.mem_cons.mp hc with hc | hc
          · omega
          · have := ih.2 c hc
            omega
        | false =>
          exact absurd ⟨by omega, e', hop, hfe⟩ hp

/-- An aborted loop makes the whole batch call return the wrapped error — no
combined result. -/
theorem transcribeAudioInBatches_error (fileSize maxChunkSize : ℕ) (dur : ℚ)
    (oracle : ℕ → CallOutcome) (elapsed : ℕ → ℚ) (e : TranscriptionError)
    (h : (batchLoop oracle elapsed ((chunkMetas fileSize maxChunkSize dur).map ChunkMeta.size).length
        ((chunkMetas fileSize maxChunkSize dur).map ChunkMeta.size) 0).result = .error e) :
    (transcribeAudioInBatches fileSize maxChunkSize dur oracle elapsed).2 =
      .error (wrapBatchError e) := by
  unfold transcribeAudioInBatches runChunkLoop
  simp only [h]

/-- Any compression-step failure reroutes the call to the batch pipeline. -/
theorem transcribeWithCompression_fallback (ce : CompressEnv)
    (fileSize maxChunkSize : ℕ) (dur : ℚ) (oracle : ℕ → CallOutcome) (elapsed : ℕ → ℚ)
    (h : ce.loadOk = false ∨ ce.writeOk = false ∨ ce.execOk = false ∨ ce.readOk = false) :
    (transcribeWithCompression ce fileSize maxChunkSize dur oracle elapsed).2 =
      (transcribeAudioInBatches fileSize maxChunkSize dur oracle elapsed).2 := by
  rcases ce with ⟨lo, wo, eo, ro, cc⟩
  simp only at h
  unfold transcribeWithCompression
  cases lo <;> cases wo <;> cases eo <;> cases ro <;> simp_all

/-- When every compression step succeeds but the direct transcription of the
compressed file throws, the call is also rerouted to the batch pipeline (the
catch-all swallows the error). -/
theorem transcribeWithCompression_direct_error (ce : CompressEnv)
    (fileSize maxChunkSize : ℕ) (dur : ℚ) (oracle : ℕ → CallOutcome) (elapsed : ℕ → ℚ)
    (e : TranscriptionError)
    (hl : ce.loadOk = true) (hw : ce.writeOk = true) (he : ce.execOk = true)
    (hr : ce.readOk = true) (hc : ce.compressedCall = .error e) :
    (transcribeWithCompression ce fileSize maxChunkSize dur oracle elapsed).2 =
      (transcribeAudioInBatches fileSize maxChunkSize dur oracle elapsed).2 := by
  rcases ce with ⟨lo, wo, eo, ro, cc⟩
  simp only at hl hw he hr hc
  subst hl hw he hr hc
  unfold transcribeWithCompression
  simp

/-- When every compression step succeeds and the direct transcription of the
compressed file succeeds, the call returns that text with the six milestone
events. -/
theorem transcribeWithCompression_success (ce : CompressEnv)
    (fileSize maxChunkSize : ℕ) (dur : ℚ) (oracle : ℕ → CallOutcome) (elapsed : ℕ → ℚ)
    (t : String)
    (hl : ce.loadOk = true) (hw : ce.writeOk = true) (he : ce.execOk = true)
    (hr : ce.readOk = true) (hc : ce.compressedCall = .ok t) :
    transcribeWithCompression ce fileSize maxChunkSize dur oracle elapsed =
      ([compressEvent .analyzing 0 0, compressEvent .processing 0 25,
        compressEvent .processing 0 50, compressEvent .processing 0 75,
        compressEvent .combining 1 90, compressEvent .combining 1 100], .ok t) := by
  rcases ce with ⟨lo, wo, eo, ro, cc⟩
  simp only at hl hw he hr hc
  subst hl hw he hr hc
  unfold transcribeWithCompression
  simp

/-- An oversized file is routed to the compression path. -/
theorem transcribeAudio_big (env : PipelineEnv) (h : maxFileSize < env.fileSize) :
    transcribeAudio env =
      transcribeWithCompression env.compress env.fileSize maxFileSize env.duration
        env.oracle env.elapsed := by
  unfold transcribeAudio
  rw [if_pos h]

/-- A file within the limit takes the direct path and emits no events. -/
theorem transcribeAudio_small (env : PipelineEnv) (h : ¬ maxFileSize < env.fileSize) :
    transcribeAudio env = ([], env.directCall) := by
  unfold transcribeAudio
  rw [if_neg h]

/-! ### Lemmas about the chunking strategy -/

theorem numChunks_pos (fileSize maxChunkSize : ℕ)
    (hL : 0 < fileSize) (hC : 0 < maxChunkSize) : 0 < numChunks fileSize maxChunkSize := by
  unfold numChunks
  exact Nat.div_pos (by omega) hC

/-- `numChunks` is the ceiling of `fileSize / maxChunkSize`:
`(N-1) * maxChunkSize < fileSize ≤ N * maxChunkSize`. -/
theorem numChunks_ceil (fileSize maxChunkSize : ℕ)
    (hL : 0 < fileSize) (hC : 0 < maxChunkSize) :
    (numChunks fileSize maxChunkSize - 1) * maxChunkSize < fileSize ∧
      fileSize ≤ numChunks fileSize maxChunkSize * maxChunkSize := by
  unfold numChunks
  have h1 := Nat.div_add_mod (fileSize + maxChunkSize - 1) maxChunkSize
  have h2 := Nat.mod_lt (fileSize + maxChunkSize - 1) hC
  have hb := Nat.eq_sub_of_add_eq h1
  constructor
  · rw [Nat.sub_one_mul, Nat.mul_comm ((fileSize + maxChunkSize - 1) / maxChunkSize)
      maxChunkSize, hb]
    omega
  · rw [Nat.mul_comm ((fileSize + maxChunkSize - 1) / maxChunkSize) maxChunkSize, hb]
    omega

theorem chunkAudioFile_length (bytes : List ℕ) (maxChunkSize : ℕ) (dur : ℚ) :
    (chunkAudioFile bytes maxChunkSize dur).length = numChunks bytes.length maxChunkSize := by
  simp [chunkAudioFile]

theorem chunkAudioFile_map_index (bytes : List ℕ) (maxChunkSize : ℕ) (dur : ℚ) :
    (chunkAudioFile bytes maxChunkSize dur).map (fun c => c.index) =
      List.range (numChunks bytes.length maxChunkSize) := by
  simp [chunkAudioFile, List.map_map, Function.comp_def]

theorem chunkAudioFile_map_startTime (bytes : List ℕ) (maxChunkSize : ℕ) (dur : ℚ) :
    (chunkAudioFile bytes maxChunkSize dur).map (fun c => c.startTime) =
      (List.range (numChunks bytes.length maxChunkSize)).map
        (fun i : ℕ => (i : ℚ) * (dur / (numChunks bytes.length maxChunkSize : ℚ))) := by
  simp only [chunkAudioFile, List.map_map]
  rfl

theorem chunkAudioFile_map_duration (bytes : List ℕ) (maxChunkSize : ℕ) (dur : ℚ) :
    (chunkAudioFile bytes maxChunkSize dur).map (fun c => c.duration) =
      List.replicate (numChunks bytes.length maxChunkSize)
        (dur / (numChunks bytes.length maxChunkSize : ℚ)) := by
  rw [List.eq_replicate_iff]
  constructor
  · simp [chunkAudioFile]
  · intro b hb
    simp only [chunkAudioFile, List.map_map, List.mem_map] at hb
    obtain ⟨i, _, hi⟩ := hb
    exact hi.symm

/-- Byte budget of the non-final chunks: `(i+1) * (L/N) ≤ L` for `i + 1 ≤ N`. -/
theorem chunk_mul_le (L N i : ℕ) (h : i + 1 ≤ N) : (i + 1) * (L / N) ≤ L :=
  le_trans (Nat.mul_le_mul_right (L / N) h)
    (by rw [Nat.mul_comm]; exact Nat.div_mul_le_self L N)

/-- Payload sizes: every non-final chunk holds `⌊L/N⌋` bytes, the final chunk
the remainder `L - (N-1) * ⌊L/N⌋`. -/
theorem chunkAudioFile_map_payloadLength (bytes : List ℕ) (maxChunkSize : ℕ) (dur : ℚ)
    (hL : 0 < bytes.length) (hC : 0 < maxChunkSize) :
    (chunkAudioFile bytes maxChunkSize dur).map (fun c => c.payload.length) =
      (List.range (numChunks bytes.length maxChunkSize)).map
        (fun i =>
          if i = numChunks bytes.length maxChunkSize - 1 then
            bytes.length - (numChunks bytes.length maxChunkSize - 1) *
              (bytes.length / numChunks bytes.length maxChunkSize)
          else bytes.length / numChunks bytes.length maxChunkSize) := by
  have hN := numChunks_pos bytes.length maxChunkSize hL hC
  simp only [chunkAudioFile, List.map_map]
  refine List.map_congr_left fun i hi => ?_
  have hiN : i < numChunks bytes.length maxChunkSize := List.mem_range.mp hi
  simp only [Function.comp_apply, List.length_take, List.length_drop]
  by_cases hlast : i = numChunks bytes.length maxChunkSize - 1
  · rw [if_pos hlast, if_pos hlast, hlast]
    exact Nat.min_self _
  · rw [if_neg hlast, if_neg hlast]
    have hsub : (i + 1) * (bytes.length / numChunks bytes.length maxChunkSize) -
        i * (bytes.length / numChunks bytes.length maxChunkSize) =
        bytes.length / numChunks bytes.length maxChunkSize := by
      rw [Nat.succ_mul]
      exact Nat.add_sub_cancel_left _ _
    rw [hsub]
    have hle := chunk_mul_le bytes.length (numChunks bytes.length maxChunkSize) i (by omega)
    rw [Nat.succ_mul] at hle
    refine Nat.min_eq_left (Nat.le_sub_of_add_le ?_)
    rw [Nat.add_comm]
    exact hle

/-- Concatenating `m` consecutive fixed-width slices yields the first
`m * width` bytes. -/
theorem flatten_slices (bytes : List ℕ) (c : ℕ) :
    ∀ m : ℕ, ((List.range m).map fun i => (bytes.drop (i * c)).take c).flatten =
      bytes.take (m * c)
  | 0 => by simp
  | m + 1 => by
    rw [List.range_succ, List.map_append, List.flatten_append,
      flatten_slices bytes c m]
    simp only [List.map_cons, List.map_nil, List.flatten_cons, List.flatten_nil,
      List.append_nil]
    rw [Nat.succ_mul, List.take_add]

/-- The raw payload slices of the chunking, indexed over `0..N-1`. -/
theorem chunkAudioFile_map_payload (bytes : List ℕ) (maxChunkSize : ℕ) (dur : ℚ) :
    (chunkAudioFile bytes maxChunkSize dur).map (fun c => c.payload) =
      (List.range (numChunks bytes.length maxChunkSize)).map fun i =>
        (bytes.drop (i * (bytes.length / numChunks bytes.length maxChunkSize))).take
          ((if i = numChunks bytes.length maxChunkSize - 1 then bytes.length
            else (i + 1) * (bytes.length / numChunks bytes.length maxChunkSize)) -
            i * (bytes.length / numChunks bytes.length maxChunkSize)) := by
  simp only [chunkAudioFile, List.map_map]
  rfl

/-- The chunk payloads concatenate back to the original byte buffer: the byte
partition is exact. -/
theorem chunkAudioFile_flatten (bytes : List ℕ) (maxChunkSize : ℕ) (dur : ℚ)
    (hL : 0 < bytes.length) (hC : 0 < maxChunkSize) :
    ((chunkAudioFile bytes maxChunkSize dur).map (fun c => c.payload)).flatten = bytes := by
  have hN := numChunks_pos bytes.length maxChunkSize hL hC
  rw [chunkAudioFile_map_payload]
  set N := numChunks bytes.length maxChunkSize with hNdef
  set c := bytes.length / N with hcdef
  have hrange : List.range N = List.range (N - 1) ++ [N - 1] := by
    conv_lhs => rw [show N = (N - 1) + 1 by omega]
    exact List.range_succ (N - 1)
  rw [hrange, List.map_append, List.flatten_append]
  have hfirst : ((List.range (N - 1)).map fun i =>
      (bytes.drop (i * c)).take
        ((if i = N - 1 then bytes.length else (i + 1) * c) - i * c)) =
      (List.range (N - 1)).map fun i => (bytes.drop (i * c)).take c := by
    refine List.map_congr_left fun i hi => ?_
    have hiN : i < N - 1 := List.mem_range.mp hi
    rw [if_neg (by omega)]
    congr 1
    rw [Nat.succ_mul]
    exact Nat.add_sub_cancel_left _ _
  rw [hfirst, flatten_slices bytes c (N - 1)]
  simp only [List.map_cons, List.map_nil, List.flatten_cons, List.flatten_nil,
    List.append_nil]
  simp only [if_true, eq_self_iff_true, if_pos]
  have htail : (bytes.drop ((N - 1) * c)).take (bytes.length - (N - 1) * c) =
      bytes.drop ((N - 1) * c) := by
    rw [← List.length_drop]
    exact List.take_length _
  rw [htail, List.take_append_drop]

/-- The payload byte lengths sum to the original file length. -/
theorem chunkAudioFile_sum_length (bytes : List ℕ) (maxChunkSize : ℕ) (dur : ℚ)
    (hL : 0 < bytes.length) (hC : 0 < maxChunkSize) :
    ((chunkAudioFile bytes maxChunkSize dur).map (fun c => c.payload.length)).sum =
      bytes.length := by
  have h := chunkAudioFile_flatten bytes maxChunkSize dur hL hC
  have h2 := congrArg List.length h
  rw [List.length_flatten, List.map_map] at h2
  simpa [Function.comp_def] using h2

/-- The metadata view of the byte-level chunking agrees with the arithmetic
`chunkMetas` used by the pipeline model. -/
theorem chunkMetas_eq_chunkAudioFile (bytes : List ℕ) (maxChunkSize : ℕ) (dur : ℚ) :
    (chunkAudioFile bytes maxChunkSize dur).map AudioChunk.toMeta =
      chunkMetas bytes.length maxChunkSize dur := by
  simp only [chunkAudioFile, chunkMetas, List.map_map]
  refine List.map_congr_left fun i hi => ?_
  have hiN : i < numChunks bytes.length maxChunkSize := List.mem_range.mp hi
  simp only [Function.comp_apply, AudioChunk.toMeta]
  refine congrArg (fun sz => ChunkMeta.mk sz i _ _) ?_
  simp only [List.length_take, List.length_drop]
  by_cases hlast : i = numChunks bytes.length maxChunkSize - 1
  · rw [if_pos hlast]
    exact Nat.min_self _
  · rw [if_neg hlast]
    refine Nat.min_eq_left ?_
    have hle := chunk_mul_le bytes.length (numChunks bytes.length maxChunkSize) i (by omega)
    rw [Nat.succ_mul] at hle ⊢
    rw [Nat.add_sub_cancel_left]
    refine Nat.le_sub_of_add_le ?_
    rw [Nat.add_comm]
    exact hle

/-! ### Lemmas about the result combiner -/

instance : IsTotal (ChunkMeta × String) chunkPairLE :=
  ⟨fun a b => Nat.le_total a.1.index b.1.index⟩

instance : IsTrans (ChunkMeta × String) chunkPairLE :=
  ⟨fun _ _ _ h1 h2 => Nat.le_trans h1 h2⟩

/-- Strict index comparison on (chunk, transcript) pairs. -/
def chunkPairLT (a b : ChunkMeta × String) : Prop := a.1.index < b.1.index

instance : IsAntisymm (ChunkMeta × String) chunkPairLT :=
  ⟨fun _ _ h1 h2 => absurd h2 (Nat.lt_asymm h1)⟩

theorem string_length_pos_iff (t : String) : 0 < t.length ↔ t ≠ "" := by
  obtain ⟨l⟩ := t
  cases l with
  | nil => simp [String.length]
  | cons c cs =>
    constructor
    · intro _ h
      exact List.cons_ne_nil c cs (congrArg String.data h)
    · intro _
      simp [String.length]

/-- On index-sorted inputs of equal length, `combineChunkResults` computes
exactly the spec-side trim / drop-empties / join / collapse / trim pipeline. -/
theorem combineChunkResults_sorted (chunks : List ChunkMeta) (ts : List String)
    (hlen : chunks.length = ts.length)
    (hsort : List.Sorted chunkPairLE (chunks.zip ts)) :
    combineChunkResults chunks ts = .ok (combineSpecSide ts) := by
  unfold combineChunkResults combineSpecSide
  rw [if_neg (by omega)]
  dsimp only
  rw [List.Sorted.insertionSort_eq hsort]
  have hsnd : (chunks.zip ts).map (fun r => jsTrim r.2) = ts.map jsTrim := by
    have hcomp : (chunks.zip ts).map (fun r => jsTrim r.2) =
        ((chunks.zip ts).map Prod.snd).map jsTrim := by
      rw [List.map_map]
      rfl
    rw [hcomp, List.map_snd_zip chunks ts (le_of_eq hlen.symm)]
  rw [hsnd]
  have hfilter : (ts.map jsTrim).filter (fun t => decide (0 < t.length)) =
      (ts.map jsTrim).filter (fun t => decide (t ≠ "")) := by
    refine List.filter_congr fun t _ => ?_
    exact decide_eq_decide.mpr (string_length_pos_iff t)
  rw [hfilter]

/-- `combineChunkResults` depends only on the multiset of (chunk, transcript)
pairs when the chunk indices are pairwise distinct: the stable re-sort by
index normalises any arrival order. -/
theorem combineChunkResults_perm (c₁ c₂ : List ChunkMeta) (t₁ t₂ : List String)
    (h₁ : c₁.length = t₁.length) (h₂ : c₂.length = t₂.length)
    (hperm : (c₁.zip t₁).Perm (c₂.zip t₂))
    (hnd : ((c₁.zip t₁).map fun p => p.1.index).Nodup) :
    combineChunkResults c₁ t₁ = combineChunkResults c₂ t₂ := by
  unfold combineChunkResults
  rw [if_neg (by omega), if_neg (by omega)]
  suffices hs : List.insertionSort chunkPairLE (c₁.zip t₁) =
      List.insertionSort chunkPairLE (c₂.zip t₂) by rw [hs]
  have s₁ := List.sorted_insertionSort chunkPairLE (c₁.zip t₁)
  have s₂ := List.sorted_insertionSort chunkPairLE (c₂.zip t₂)
  have p₁ := List.perm_insertionSort chunkPairLE (c₁.zip t₁)
  have p₂ := List.perm_insertionSort chunkPairLE (c₂.zip t₂)
  have hperm' := (p₁.trans hperm).trans p₂.symm
  have hnd₁ : ((List.insertionSort chunkPairLE (c₁.zip t₁)).map fun p => p.1.index).Nodup :=
    (p₁.map fun p => p.1.index).nodup_iff.mpr hnd
  have hndz₂ : ((c₂.zip t₂).map fun p => p.1.index).Nodup :=
    ((hperm.map fun p => p.1.index).nodup_iff).mp hnd
  have hnd₂ : ((List.insertionSort chunkPairLE (c₂.zip t₂)).map fun p => p.1.index).Nodup :=
    (p₂.map fun p => p.1.index).nodup_iff.mpr hndz₂
  have hlt₁ : List.Sorted chunkPairLT (List.insertionSort chunkPairLE (c₁.zip t₁)) := by
    have hne := List.pairwise_map.mp hnd₁
    exact (s₁.and hne).imp fun h => Nat.lt_of_le_of_ne h.1 h.2
  have hlt₂ : List.Sorted chunkPairLT (List.insertionSort chunkPairLE (c₂.zip t₂)) := by
    have hne := List.pairwise_map.mp hnd₂
    exact (s₂.and hne).imp fun h => Nat.lt_of_le_of_ne h.1 h.2
  exact List.eq_of_perm_of_sorted hperm' hlt₁ hlt₂

/-! ### Lemmas about phase ordering of event traces -/

theorem chunkingEvents_mem_rank (n : ℕ) (e : BatchProgress) (h : e ∈ chunkingEvents n) :
    e.phase.rank ≤ 1 := by
  simp only [chunkingEvents, List.mem_cons, List.mem_map] at h
  rcases h with h | h | ⟨i, _, h⟩ <;> subst h <;> simp [Phase.rank]

theorem chunkingEvents_pairwise (n : ℕ) :
    List.Pairwise (fun a b : BatchProgress => a.phase.rank ≤ b.phase.rank)
      (chunkingEvents n) := by
  unfold chunkingEvents
  refine List.Pairwise.cons (fun b _ => Nat.zero_le _) (List.Pairwise.cons ?_ ?_)
  · intro b hb
    obtain ⟨i, _, rfl⟩ := List.mem_map.mp hb
    exact Nat.le_refl _
  · refine List.pairwise_of_forall_mem_list fun a ha b hb => ?_
    obtain ⟨i, _, rfl⟩ := List.mem_map.mp ha
    obtain ⟨j, _, rfl⟩ := List.mem_map.mp hb
    exact Nat.le_refl _

theorem pairwise_rank_append (l₁ l₂ : List BatchProgress) (k : ℕ)
    (h₁ : List.Pairwise (fun a b : BatchProgress => a.phase.rank ≤ b.phase.rank) l₁)
    (h₂ : List.Pairwise (fun a b : BatchProgress => a.phase.rank ≤ b.phase.rank) l₂)
    (hb₁ : ∀ e ∈ l₁, e.phase.rank ≤ k) (hb₂ : ∀ e ∈ l₂, k ≤ e.phase.rank) :
    List.Pairwise (fun a b : BatchProgress => a.phase.rank ≤ b.phase.rank) (l₁ ++ l₂) :=
  List.pairwise_append.mpr ⟨h₁, h₂, fun a ha b hb => Nat.le_trans (hb₁ a ha) (hb₂ b hb)⟩

/-- Phase ordering of a chunking trace followed by processing events. -/
theorem pairwise_rank_core (n : ℕ) (initEv : BatchProgress) (loopEvents : List BatchProgress)
    (hinit : initEv.phase = .processing)
    (hloop : ∀ e ∈ loopEvents, e.phase = .processing) :
    List.Pairwise (fun a b : BatchProgress => a.phase.rank ≤ b.phase.rank)
      (chunkingEvents n ++ initEv :: loopEvents) := by
  refine pairwise_rank_append _ _ 2 (chunkingEvents_pairwise n) ?_ ?_ ?_
  · refine List.Pairwise.cons ?_ ?_
    · intro b hb
      rw [hinit, hloop b hb]
    · refine List.pairwise_of_forall_mem_list fun a ha b hb => ?_
      rw [hloop a ha, hloop b hb]
  · intro e he
    exact Nat.le_trans (chunkingEvents_mem_rank n e he) (by omega)
  · intro e he
    rcases List.mem_cons.mp he with h | h
    · subst h
      rw [hinit]
      decide
    · rw [hloop e h]
      decide

/-- Phase ordering of the full trace including the final combining event. -/
theorem pairwise_rank_core_comb (n : ℕ) (initEv : BatchProgress)
    (loopEvents : List BatchProgress) (combEv : BatchProgress)
    (hinit : initEv.phase = .processing)
    (hloop : ∀ e ∈ loopEvents, e.phase = .processing)
    (hcomb : combEv.phase = .combining) :
    List.Pairwise (fun a b : BatchProgress => a.phase.rank ≤ b.phase.rank)
      ((chunkingEvents n ++ initEv :: loopEvents) ++ [combEv]) := by
  refine pairwise_rank_append _ _ 3 (pairwise_rank_core n initEv loopEvents hinit hloop)
    (List.pairwise_singleton _ _) ?_ ?_
  · intro e he
    rcases List.mem_append.mp he with h | h
    · exact Nat.le_trans (chunkingEvents_mem_rank n e h) (by omega)
    · rcases List.mem_cons.mp h with h | h
      · subst h
        rw [hinit]
        decide
      · rw [hloop e h]
        decide
  · intro e he
    rcases List.mem_singleton.mp he with h
    subst h
    rw [hcomb]
    decide

/-- The full event trace of the batch pipeline is phase-ordered: analyzing,
chunking, processing, combining, in that order. -/
theorem transcribeAudioInBatches_pairwise (fileSize maxChunkSize : ℕ) (dur : ℚ)
    (oracle : ℕ → CallOutcome) (elapsed : ℕ → ℚ) :
    List.Pairwise (fun a b : BatchProgress => a.phase.rank ≤ b.phase.rank)
      (transcribeAudioInBatches fileSize maxChunkSize dur oracle elapsed).1 := by
  unfold transcribeAudioInBatches runChunkLoop
  dsimp only
  have hloop := batchLoop_events_phase oracle elapsed
    ((chunkMetas fileSize maxChunkSize dur).map ChunkMeta.size).length
    ((chunkMetas fileSize maxChunkSize dur).map ChunkMeta.size) 0
  cases hr : (batchLoop oracle elapsed
      ((chunkMetas fileSize maxChunkSize dur).map ChunkMeta.size).length
      ((chunkMetas fileSize maxChunkSize dur).map ChunkMeta.size) 0).result with
  | error e =>
    simp only [hr]
    exact pairwise_rank_core _ _ _ rfl hloop
  | ok ts =>
    simp only [hr]
    cases hc : combineChunkResults (chunkMetas fileSize maxChunkSize dur) ts with
    | ok text =>
      simp only [hc]
      exact pairwise_rank_core_comb _ _ _ _ rfl hloop rfl
    | error m =>
      simp only [hc]
      exact pairwise_rank_core_comb _ _ _ _ rfl hloop rfl

/-! ### Lemmas about progress monotonicity -/

theorem chain'_lt_zero_cons_map (l : List ℕ) (h : List.Chain' (· < ·) l) :
    List.Chain' (· < ·) ((0 : ℕ) :: l.map (· + 1)) := by
  refine List.chain'_cons'.mpr ⟨?_, ?_⟩
  · intro y hy
    rcases l with _ | ⟨a, t⟩
    · simp at hy
    · simp only [List.map_cons, List.head?_cons, Option.mem_def, Option.some.injEq] at hy
      omega
  · rw [List.chain'_map]
    exact h.imp fun hab => by omega

theorem chain'_progress (n : ℕ) (l : List ℕ) (h : List.Chain' (· < ·) l) :
    List.Chain' (· ≤ ·)
      ((0 : ℚ) :: l.map fun k : ℕ => ((k : ℚ) + 1) / (n : ℚ) * 100) := by
  refine List.chain'_cons'.mpr ⟨?_, ?_⟩
  · intro y hy
    rcases l with _ | ⟨a, t⟩
    · simp at hy
    · simp only [List.map_cons, List.head?_cons, Option.mem_def, Option.some.injEq] at hy
      rw [← hy]
      positivity
  · rw [List.chain'_map]
    refine List.Chain'.imp ?_ h
    intro a b hab
    rcases Nat.eq_zero_or_pos n with hn | hn
    · subst hn
      norm_num
    · have hnq : (0 : ℚ) < (n : ℚ) := by positivity
      refine mul_le_mul_of_nonneg_right ?_ (by norm_num)
      rw [div_le_div_iff_of_pos_right hnq]
      have hsucc : a + 1 ≤ b + 1 := by omega
      exact_mod_cast hsucc

/-- Events of the compression route when the encoder fails to load: the single
analyzing checkpoint followed by the full batch-pipeline trace. -/
theorem transcribeWithCompression_loadfail_events (ce : CompressEnv)
    (fileSize maxChunkSize : ℕ) (dur : ℚ) (oracle : ℕ → CallOutcome) (elapsed : ℕ → ℚ)
    (h : ce.loadOk = false) :
    (transcribeWithCompression ce fileSize maxChunkSize dur oracle elapsed).1 =
      compressEvent .analyzing 0 0 ::
        (transcribeAudioInBatches fileSize maxChunkSize dur oracle elapsed).1 := by
  unfold transcribeWithCompression
  rw [if_pos h]
  dsimp only
  rw [List.singleton_append]

/-- The chunk sizes computed by `chunkMetas` do not depend on the audio
duration. -/
theorem chunkMetas_map_size (fileSize maxChunkSize : ℕ) (dur : ℚ) :
    (chunkMetas fileSize maxChunkSize dur).map ChunkMeta.size =
      (List.range (numChunks fileSize maxChunkSize)).map
        (fun i =>
          (if i = numChunks fileSize maxChunkSize - 1 then fileSize
            else (i + 1) * (fileSize / numChunks fileSize maxChunkSize)) -
            i * (fileSize / numChunks fileSize maxChunkSize)) := by
  simp only [chunkMetas, List.map_map]
  rfl

/-! ### The claims -/

/-- Claim C1: in a batch transcription, a chunk whose remote call fails with a
format/decoding-class error (message passing the `file format` classifier) has
an empty-string transcript recorded at its index and the batch continues; a
chunk whose call fails with any other error class aborts the whole batch: that
error (wrapped by the batch-level catch) propagates, no chunk past it is
submitted, and no combined result is returned. -/
theorem c1_batch_error_tolerance_and_abort
    (oracle : ℕ → CallOutcome) (elapsed : ℕ → ℚ) (n : ℕ)
    (pre rest : List ℕ) (s : ℕ) (e : TranscriptionError)
    (hs : ¬ s < 1000) (ho : oracle pre.length = .err e) :
    (isFormatErrorMsg e.message = true →
      ∀ ts, (batchLoop oracle elapsed n (pre ++ s :: rest) 0).result = .ok ts →
        ts = expectedTranscripts oracle pre 0 ++
          "" :: expectedTranscripts oracle rest (pre.length + 1)) ∧
    (isFormatErrorMsg e.message = false →
      (∀ k, k < pre.length → ¬ chunkFatal oracle (pre.getD k 0) k) →
      (batchLoop oracle elapsed n (pre ++ s :: rest) 0).result = .error e ∧
      (∀ c ∈ (batchLoop oracle elapsed n (pre ++ s :: rest) 0).calls, c ≤ pre.length) ∧
      ∀ fileSize maxChunkSize : ℕ, ∀ dur : ℚ,
        (chunkMetas fileSize maxChunkSize dur).map ChunkMeta.size = pre ++ s :: rest →
          (transcribeAudioInBatches fileSize maxChunkSize dur oracle elapsed).2 =
            .error (wrapBatchError e)) := by
  constructor
  · intro hf ts h
    rw [batchLoop_result_ok oracle elapsed n (pre ++ s :: rest) 0 ts h,
      expectedTranscripts_append]
    simp only [Nat.zero_add, expectedTranscripts, expectedTranscript, if_neg hs, ho]
  · intro hf hsafe
    have hsafe0 : ∀ k, k < pre.length → ¬ chunkFatal oracle (pre.getD k 0) (0 + k) := by
      intro k hk
      rw [Nat.zero_add]
      exact hsafe k hk
    have ho0 : oracle (0 + pre.length) = .err e := by rw [Nat.zero_add]; exact ho
    have hmain := batchLoop_fatal oracle elapsed n pre s rest 0 e hsafe0 hs ho0 hf
    refine ⟨hmain.1, ?_, ?_⟩
    · intro c hc
      have := hmain.2 c hc
      omega
    · intro fileSize maxChunkSize dur hmetas
      apply transcribeAudioInBatches_error
      rw [hmetas]
      exact (batchLoop_fatal oracle elapsed (pre ++ s :: rest).length pre s rest 0 e
        hsafe0 hs ho0 hf).1

/-- Pipeline world of the C1 witness: the second chunk's remote call throws an
authorisation error. -/
def c1Oracle : ℕ → CallOutcome := fun i =>
  if i = 1 then .err ⟨"Transcription failed: Unauthorized", "api_error", false⟩
  else .ok "hello"

theorem c1_witness :
    (batchLoop c1Oracle (fun _ => 0) 2 ([1500] ++ 2000 :: []) 0).result =
      .error ⟨"Transcription failed: Unauthorized", "api_error", false⟩ ∧
    ∀ c ∈ (batchLoop c1Oracle (fun _ => 0) 2 ([1500] ++ 2000 :: []) 0).calls, c ≤ 1 := by
  have h := (c1_batch_error_tolerance_and_abort c1Oracle (fun _ => 0) 2 [1500] []
    2000 ⟨"Transcription failed: Unauthorized", "api_error", false⟩
    (by decide) rfl).2 (by decide) (by decide)
  exact ⟨h.1, h.2.1⟩

/-- Claim C2: for an oversized file, a failure of any compression step never
surfaces as an error: the pipeline silently falls back to the chunking route,
and if that route succeeds the caller still receives its combined
transcript. -/
theorem c2_compression_failure_fallback (env : PipelineEnv)
    (hbig : maxFileSize < env.fileSize)
    (hfail : env.compress.loadOk = false ∨ env.compress.writeOk = false ∨
      env.compress.execOk = false ∨ env.compress.readOk = false)
    (text : String)
    (hok : (transcribeAudioInBatches env.fileSize maxFileSize env.duration
      env.oracle env.elapsed).2 = .ok text) :
    (transcribeAudio env).2 = .ok text := by
  rw [transcribeAudio_big env hbig]
  rw [transcribeWithCompression_fallback env.compress env.fileSize maxFileSize
    env.duration env.oracle env.elapsed hfail]
  exact hok

/-- Pipeline world of the C2 witness: the encoder transform fails on a 26 MiB
file, and both chunk calls succeed. -/
def c2Env : PipelineEnv :=
  { fileSize := 26 * 1024 * 1024
    duration := 100
    compress := ⟨true, true, false, true, .ok "never used"⟩
    oracle := fun _ => .ok "part"
    elapsed := fun _ => 0
    directCall := .ok "unused" }

theorem c2_witness : (transcribeAudio c2Env).2 = .ok "part part" :=
  c2_compression_failure_fallback c2Env (by decide)
    (Or.inr (Or.inr (Or.inl rfl))) "part part" (by decide)

/-- Pipeline world of the C3 counterexample: every compression step succeeds
but the direct transcription of the compressed file throws an authorisation
error; the batch fallback then succeeds. -/
def c3Env : PipelineEnv :=
  { fileSize := 26 * 1024 * 1024
    duration := 100
    compress := ⟨true, true, true, true,
      .error ⟨"Transcription failed: Unauthorized", "api_error", false⟩⟩
    oracle := fun _ => .ok "fallback text"
    elapsed := fun _ => 0
    directCall := .ok "unused" }

/-- Claim C3 counterexample: compression succeeds, the direct transcription of
the compressed file fails, yet the error does not propagate — the pipeline
falls back to chunking and returns the chunked transcript. -/
theorem c3_counterexample :
    c3Env.compress.compressedCall =
      .error ⟨"Transcription failed: Unauthorized", "api_error", false⟩ ∧
    (transcribeAudio c3Env).2 = .ok "fallback text fallback text" ∧
    (transcribeAudio c3Env).2 ≠
      .error ⟨"Transcription failed: Unauthorized", "api_error", false⟩ :=
  ⟨rfl, by decide, by decide⟩

/-- Claim C3 (amended): when compression succeeds, the shrunk file is submitted
through the single-file direct path, but a failure of that direct call is
caught by the same compression-level handler and also triggers the chunking
fallback — it does not propagate to the caller. -/
theorem c3_direct_call_failure_also_falls_back (env : PipelineEnv)
    (hbig : maxFileSize < env.fileSize)
    (hl : env.compress.loadOk = true) (hw : env.compress.writeOk = true)
    (he : env.compress.execOk = true) (hr : env.compress.readOk = true)
    (e : TranscriptionError) (hc : env.compress.compressedCall = .error e) :
    (transcribeAudio env).2 =
      (transcribeAudioInBatches env.fileSize maxFileSize env.duration
        env.oracle env.elapsed).2 := by
  rw [transcribeAudio_big env hbig]
  exact transcribeWithCompression_direct_error env.compress env.fileSize maxFileSize
    env.duration env.oracle env.elapsed e hl hw he hr hc

theorem c3_witness :
    (transcribeAudio c3Env).2 =
      (transcribeAudioInBatches c3Env.fileSize maxFileSize c3Env.duration
        c3Env.oracle c3Env.elapsed).2 :=
  c3_direct_call_failure_also_falls_back c3Env (by decide) rfl rfl rfl rfl
    ⟨"Transcription failed: Unauthorized", "api_error", false⟩ rfl

/-- Claim C4: chunking a file of `L > 0` bytes with max chunk size `C > 0`
produces exactly `N = ceil(L / C)` chunks (characterised by
`(N-1)·C < L ≤ N·C`), indices exactly `0..N-1`, payloads partitioning the file
exactly (they concatenate back to the file; lengths sum to `L`), each
non-final chunk of `⌊L/N⌋` bytes and the final chunk absorbing the remainder,
chunk `i` starting at `i · (D/N)` with duration `D/N`; and a 60 MB file with a
25 MB max chunk size yields three 20 MB chunks. -/
theorem c4_chunking_partition (bytes : List ℕ) (maxChunkSize : ℕ) (dur : ℚ)
    (hL : 0 < bytes.length) (hC : 0 < maxChunkSize) :
    (chunkAudioFile bytes maxChunkSize dur).length = numChunks bytes.length maxChunkSize ∧
    (numChunks bytes.length maxChunkSize - 1) * maxChunkSize < bytes.length ∧
    bytes.length ≤ numChunks bytes.length maxChunkSize * maxChunkSize ∧
    (chunkAudioFile bytes maxChunkSize dur).map (fun c => c.index) =
      List.range (numChunks bytes.length maxChunkSize) ∧
    ((chunkAudioFile bytes maxChunkSize dur).map (fun c => c.payload)).flatten = bytes ∧
    ((chunkAudioFile bytes maxChunkSize dur).map (fun c => c.payload.length)).sum =
      bytes.length ∧
    (chunkAudioFile bytes maxChunkSize dur).map (fun c => c.payload.length) =
      (List.range (numChunks bytes.length maxChunkSize)).map
        (fun i =>
          if i = numChunks bytes.length maxChunkSize - 1 then
            bytes.length - (numChunks bytes.length maxChunkSize - 1) *
              (bytes.length / numChunks bytes.length maxChunkSize)
          else bytes.length / numChunks bytes.length maxChunkSize) ∧
    (chunkAudioFile bytes maxChunkSize dur).map (fun c => c.startTime) =
      (List.range (numChunks bytes.length maxChunkSize)).map
        (fun i : ℕ => (i : ℚ) * (dur / (numChunks bytes.length maxChunkSize : ℚ))) ∧
    (chunkAudioFile bytes maxChunkSize dur).map (fun c => c.duration) =
      List.replicate (numChunks bytes.length maxChunkSize)
        (dur / (numChunks bytes.length maxChunkSize : ℚ)) ∧
    ∀ d : ℚ, (chunkMetas (60 * 1024 * 1024) (25 * 1024 * 1024) d).map ChunkMeta.size =
      [20 * 1024 * 1024, 20 * 1024 * 1024, 20 * 1024 * 1024] := by
  refine ⟨chunkAudioFile_length bytes maxChunkSize dur,
    (numChunks_ceil bytes.length maxChunkSize hL hC).1,
    (numChunks_ceil bytes.length maxChunkSize hL hC).2,
    chunkAudioFile_map_index bytes maxChunkSize dur,
    chunkAudioFile_flatten bytes maxChunkSize dur hL hC,
    chunkAudioFile_sum_length bytes maxChunkSize dur hL hC,
    chunkAudioFile_map_payloadLength bytes maxChunkSize dur hL hC,
    chunkAudioFile_map_startTime bytes maxChunkSize dur,
    chunkAudioFile_map_duration bytes maxChunkSize dur,
    fun d => by rw [chunkMetas_map_size]; decide⟩

theorem c4_witness :
    ((chunkAudioFile [1, 2, 3, 4, 5, 6, 7, 8, 9, 10] 4 12).map
      (fun c => c.payload)).flatten = [1, 2, 3, 4, 5, 6, 7, 8, 9, 10] ∧
    ((chunkAudioFile [1, 2, 3, 4, 5, 6, 7, 8, 9, 10] 4 12).map
      (fun c => c.payload.length)).sum = 10 ∧
    (chunkMetas (60 * 1024 * 1024) (25 * 1024 * 1024) 300).map ChunkMeta.size =
      [20 * 1024 * 1024, 20 * 1024 * 1024, 20 * 1024 * 1024] := by
  have h := c4_chunking_partition [1, 2, 3, 4, 5, 6, 7, 8, 9, 10] 4 12
    (by decide) (by decide)
  exact ⟨h.2.2.2.2.1, h.2.2.2.2.2.1, h.2.2.2.2.2.2.2.2.2 300⟩

/-- Claim C5: on index-sorted inputs of equal length, the combiner trims each
transcript, fully drops entries empty after trimming, joins the survivors with
one space, collapses whitespace runs, and trims the result (the spec-side
pipeline `combineSpecSide`); in particular
`combine([" a  b ", "", " c"]) = "a b c"` and
`combine(["Hello ", "", "world"]) = "Hello world"`. -/
theorem c5_combine_algorithm :
    (∀ (chunks : List ChunkMeta) (ts : List String),
      chunks.length = ts.length →
      List.Sorted chunkPairLE (chunks.zip ts) →
      combineChunkResults chunks ts = .ok (combineSpecSide ts)) ∧
    combineChunkResults [⟨5, 0, 0, 1⟩, ⟨5, 1, 1, 1⟩, ⟨5, 2, 2, 1⟩]
      [" a  b ", "", " c"] = .ok "a b c" ∧
    combineChunkResults [⟨5, 0, 0, 1⟩, ⟨5, 1, 1, 1⟩, ⟨5, 2, 2, 1⟩]
      ["Hello ", "", "world"] = .ok "Hello world" :=
  ⟨combineChunkResults_sorted, by decide, by decide⟩

theorem c5_witness :
    combineChunkResults [⟨5, 0, 0, 1⟩, ⟨5, 1, 1, 1⟩] ["x ", " y"] =
      .ok (combineSpecSide ["x ", " y"]) :=
  c5_combine_algorithm.1 [⟨5, 0, 0, 1⟩, ⟨5, 1, 1, 1⟩] ["x ", " y"]
    (by decide) (by decide)

/-- Chunk record with a duplicated index, used by the C6 counterexample. -/
def c6Chunk : ChunkMeta := ⟨2000, 0, 0, 1⟩

/-- Claim C6 counterexample: two inputs carrying the same (chunk, transcript)
pairs in different arrival orders — with a duplicated chunk index — produce
different combined strings, because the stable re-sort preserves the arrival
order of equal indices. -/
theorem c6_counterexample :
    (([c6Chunk, c6Chunk].zip ["a", "b"]).Perm ([c6Chunk, c6Chunk].zip ["b", "a"])) ∧
    combineChunkResults [c6Chunk, c6Chunk] ["a", "b"] = .ok "a b" ∧
    combineChunkResults [c6Chunk, c6Chunk] ["b", "a"] = .ok "b a" ∧
    combineChunkResults [c6Chunk, c6Chunk] ["a", "b"] ≠
      combineChunkResults [c6Chunk, c6Chunk] ["b", "a"] :=
  ⟨by decide, by decide, by decide, by decide⟩

/-- Claim C6 (amended): combine is a deterministic, order-stable function of
the (chunk-index, transcript) pairs provided the chunk indices are pairwise
distinct: any two arrival orders of the same pairs yield the identical output
string, because the sort by chunk index then normalises the order. -/
theorem c6_order_independence_with_distinct_indices
    (c₁ c₂ : List ChunkMeta) (t₁ t₂ : List String)
    (h₁ : c₁.length = t₁.length) (h₂ : c₂.length = t₂.length)
    (hperm : (c₁.zip t₁).Perm (c₂.zip t₂))
    (hnd : ((c₁.zip t₁).map fun p => p.1.index).Nodup) :
    combineChunkResults c₁ t₁ = combineChunkResults c₂ t₂ :=
  combineChunkResults_perm c₁ c₂ t₁ t₂ h₁ h₂ hperm hnd

theorem c6_witness :
    combineChunkResults [⟨5, 0, 0, 1⟩, ⟨5, 1, 1, 1⟩] ["a", "b"] =
      combineChunkResults [⟨5, 1, 1, 1⟩, ⟨5, 0, 0, 1⟩] ["b", "a"] :=
  c6_order_independence_with_distinct_indices
    [⟨5, 0, 0, 1⟩, ⟨5, 1, 1, 1⟩] [⟨5, 1, 1, 1⟩, ⟨5, 0, 0, 1⟩]
    ["a", "b"] ["b", "a"] (by decide) (by decide) (by decide) (by decide)

/-- Claim C7: a chunk smaller than 1000 bytes is never submitted to the remote
endpoint (its index is absent from the submitted-call list) and an empty
transcript is recorded at its index; and every completed run hands combination
a transcript list with exactly one entry per chunk. -/
theorem c7_skip_rule_alignment (oracle : ℕ → CallOutcome) (elapsed : ℕ → ℚ) (n : ℕ)
    (pre rest : List ℕ) (s : ℕ) (hs : s < 1000) :
    pre.length ∉ (batchLoop oracle elapsed n (pre ++ s :: rest) 0).calls ∧
    (∀ ts, (batchLoop oracle elapsed n (pre ++ s :: rest) 0).result = .ok ts →
      ts = expectedTranscripts oracle pre 0 ++
        "" :: expectedTranscripts oracle rest (pre.length + 1)) ∧
    (∀ (sizes : List ℕ) (ts : List String),
      (batchLoop oracle elapsed n sizes 0).result = .ok ts →
      ts.length = sizes.length) := by
  refine ⟨?_, ?_, ?_⟩
  · intro hmem
    have h := batchLoop_calls_mem oracle elapsed n (pre ++ s :: rest) 0 pre.length hmem
    rw [Nat.sub_zero] at h
    have hget : (pre ++ s :: rest).getD pre.length 0 = s := by
      rw [List.getD_append_right pre (s :: rest) 0 pre.length (Nat.le_refl pre.length)]
      simp
    rw [hget] at h
    omega
  · intro ts h
    rw [batchLoop_result_ok oracle elapsed n (pre ++ s :: rest) 0 ts h,
      expectedTranscripts_append]
    simp only [Nat.zero_add, expectedTranscripts, expectedTranscript, if_pos hs]
  · intro sizes ts h
    rw [batchLoop_result_ok oracle elapsed n sizes 0 ts h,
      expectedTranscripts_length]

theorem c7_witness :
    (1 : ℕ) ∉ (batchLoop (fun _ => .ok "t") (fun _ => 0) 3 ([1500] ++ 500 :: [2500]) 0).calls ∧
    ∀ ts, (batchLoop (fun _ => .ok "t") (fun _ => 0) 3 ([1500] ++ 500 :: [2500]) 0).result =
      .ok ts →
      ts = expectedTranscripts (fun _ => .ok "t") [1500] 0 ++
        "" :: expectedTranscripts (fun _ => .ok "t") [2500] 2 := by
  have h := c7_skip_rule_alignment (fun _ => .ok "t") (fun _ => 0) 3 [1500] [2500] 500
    (by decide)
  exact ⟨h.1, h.2.1⟩

/-- Loop world of the C8 counterexample: the first chunk is below the 1000-byte
minimum, the second succeeds. -/
def c8Oracle : ℕ → CallOutcome := fun _ => .ok "hi"

/-- Claim C8 counterexample: in a completed 2-chunk run whose first chunk is
skipped, no progress event is emitted for the skipped chunk (the `continue`
bypasses the emission), so the emitted `currentChunk` sequence is `[0, 2]`,
not `0, 1, 2`. -/
theorem c8_counterexample :
    (runChunkLoop c8Oracle (fun _ => 1) [500, 2000] 5).result = .ok ["", "hi"] ∧
    ((runChunkLoop c8Oracle (fun _ => 1) [500, 2000] 5).events.map
      fun e => e.currentChunk) = [0, 2] ∧
    ((runChunkLoop c8Oracle (fun _ => 1) [500, 2000] 5).events.map
      fun e => e.currentChunk) ≠ List.range (([500, 2000] : List ℕ).length + 1) :=
  ⟨by decide, by decide, by decide⟩

/-- Claim C8 (amended): in a completed run the loop emits the initial
`processing` event and then one event per non-skipped chunk `i` — with
`currentChunk = i+1`, `totalChunks = N`, `progress = (i+1)/N·100` and the
freshly recomputed estimate, as recorded in `chunkDoneEvent` — skipped chunks
emit nothing; the emitted `currentChunk` values are strictly increasing,
bounded by `N`, start at `0`, and the emitted progress values are
non-decreasing; when no chunk is skipped the `currentChunk` sequence is
exactly `0, 1, …, N`. -/
theorem c8_progress_events (oracle : ℕ → CallOutcome) (elapsed : ℕ → ℚ)
    (sizes : List ℕ) (est0 : ℤ) (ts : List String)
    (hok : (batchLoop oracle elapsed sizes.length sizes 0).result = .ok ts) :
    (runChunkLoop oracle elapsed sizes est0).events =
      ⟨.processing, 0, sizes.length, 0, some est0⟩ ::
        (bigChunkIdxs sizes 0).map (chunkDoneEvent elapsed sizes.length) ∧
    ((runChunkLoop oracle elapsed sizes est0).events.map fun e => e.currentChunk) =
      0 :: (bigChunkIdxs sizes 0).map (fun k => k + 1) ∧
    List.Chain' (· < ·)
      ((runChunkLoop oracle elapsed sizes est0).events.map fun e => e.currentChunk) ∧
    (∀ e ∈ (runChunkLoop oracle elapsed sizes est0).events,
      e.currentChunk ≤ sizes.length ∧ e.totalChunks = sizes.length) ∧
    List.Chain' (· ≤ ·)
      ((runChunkLoop oracle elapsed sizes est0).events.map fun e => e.progress) ∧
    ((∀ s ∈ sizes, 1000 ≤ s) →
      ((runChunkLoop oracle elapsed sizes est0).events.map fun e => e.currentChunk) =
        List.range (sizes.length + 1)) := by
  have hev : (runChunkLoop oracle elapsed sizes est0).events =
      ⟨.processing, 0, sizes.length, 0, some est0⟩ ::
        (bigChunkIdxs sizes 0).map (chunkDoneEvent elapsed sizes.length) := by
    unfold runChunkLoop
    dsimp only
    rw [batchLoop_events_of_ok oracle elapsed sizes.length sizes 0 ts hok]
  have hcc : ((runChunkLoop oracle elapsed sizes est0).events.map
      fun e => e.currentChunk) = 0 :: (bigChunkIdxs sizes 0).map (fun k => k + 1) := by
    rw [hev]
    simp only [List.map_cons, List.map_map]
    rfl
  have hpr : ((runChunkLoop oracle elapsed sizes est0).events.map
      fun e => e.progress) =
      (0 : ℚ) :: (bigChunkIdxs sizes 0).map
        (fun k : ℕ => ((k : ℚ) + 1) / (sizes.length : ℚ) * 100) := by
    rw [hev]
    simp only [List.map_cons, List.map_map]
    rfl
  refine ⟨hev, hcc, ?_, ?_, ?_, ?_⟩
  · rw [hcc]
    exact chain'_lt_zero_cons_map (bigChunkIdxs sizes 0) (bigChunkIdxs_chain sizes 0)
  · intro e he
    rw [hev] at he
    rcases List.mem_cons.mp he with h | h
    · subst h
      exact ⟨Nat.zero_le _, rfl⟩
    · obtain ⟨k, hk, rfl⟩ := List.mem_map.mp h
      have hbnd := bigChunkIdxs_mem_bounds sizes 0 k hk
      refine ⟨?_, rfl⟩
      show k + 1 ≤ sizes.length
      omega
  · rw [hpr]
    exact chain'_progress sizes.length (bigChunkIdxs sizes 0) (bigChunkIdxs_chain sizes 0)
  · intro hbig
    rw [hcc, bigChunkIdxs_all_big sizes 0 hbig]
    have hid : (List.range sizes.length).map ((0 : ℕ) + ·) = List.range sizes.length := by
      refine Eq.trans (List.map_congr_left fun x _ => Nat.zero_add x) ?_
      exact List.map_id _
    rw [hid, List.range_succ_eq_map]

theorem c8_witness :
    (runChunkLoop c8Oracle (fun _ => 0) [1500, 500, 2500] 7).events =
      ⟨.processing, 0, 3, 0, some 7⟩ ::
        ([0, 2].map (chunkDoneEvent (fun _ => 0) 3)) :=
  (c8_progress_events c8Oracle (fun _ => 0) [1500, 500, 2500] 7 ["hi", "", "hi"]
    (by decide)).1

/-- Pipeline world of the C9 counterexample: input staging fails after the
25%-processing checkpoint, so the chunking fallback re-emits `analyzing`. -/
def c9Env : PipelineEnv :=
  { fileSize := 26 * 1024 * 1024
    duration := 100
    compress := ⟨true, false, true, true, .ok "x"⟩
    oracle := fun _ => .ok "part"
    elapsed := fun _ => 0
    directCall := .ok "unused" }

/-- Claim C9 counterexample: when compression fails after emitting a
processing-phase checkpoint, the chunking fallback restarts at `analyzing`,
so the emitted phases regress — the forward-only phase invariant is violated
on this run. -/
theorem c9_counterexample :
    ((transcribeAudio c9Env).1.map fun e => e.phase.rank) =
      [0, 2, 0, 1, 1, 1, 2, 2, 2, 3] ∧
    phasesForward (transcribeAudio c9Env).1 = false :=
  ⟨by decide, by decide⟩

/-- Claim C9 (amended): the emitted phases advance forward (never revisiting a
left phase) on the direct route (no events), on the compression-success route
(analyzing → processing → combining, chunking skipped), and on the
chunking-fallback route when compression failed before its first processing
checkpoint (encoder load); a later compression failure instead restarts the
fallback at `analyzing`, as the counterexample shows. -/
theorem c9_phase_monotonicity (env : PipelineEnv) :
    ((¬ maxFileSize < env.fileSize) → (transcribeAudio env).1 = []) ∧
    (env.compress.loadOk = true → env.compress.writeOk = true →
      env.compress.execOk = true → env.compress.readOk = true →
      ∀ t, env.compress.compressedCall = .ok t →
      phasesForward (transcribeAudio env).1 = true) ∧
    (maxFileSize < env.fileSize → env.compress.loadOk = false →
      phasesForward (transcribeAudio env).1 = true) := by
  refine ⟨?_, ?_, ?_⟩
  · intro hsmall
    rw [transcribeAudio_small env hsmall]
  · intro hl hw he hr t hc
    by_cases hbig : maxFileSize < env.fileSize
    · rw [transcribeAudio_big env hbig,
        transcribeWithCompression_success env.compress env.fileSize maxFileSize
          env.duration env.oracle env.elapsed t hl hw he hr hc]
      rfl
    · rw [transcribeAudio_small env hbig]
      rfl
  · intro hbig hl
    rw [transcribeAudio_big env hbig,
      transcribeWithCompression_loadfail_events env.compress env.fileSize maxFileSize
        env.duration env.oracle env.elapsed hl]
    refine (phasesForward_iff_chain' _).mpr ?_
    refine List.Pairwise.chain' ?_
    refine List.Pairwise.cons ?_
      (transcribeAudioInBatches_pairwise env.fileSize maxFileSize env.duration
        env.oracle env.elapsed)
    intro b _
    exact Nat.zero_le _

/-- Pipeline world of the C9 witness: encoder load fails immediately, so the
fallback trace starts fresh and stays forward. -/
def c9wEnv : PipelineEnv :=
  { fileSize := 26 * 1024 * 1024
    duration := 100
    compress := ⟨false, true, true, true, .ok "x"⟩
    oracle := fun _ => .ok "part"
    elapsed := fun _ => 0
    directCall := .ok "unused" }

theorem c9_witness : phasesForward (transcribeAudio c9wEnv).1 = true :=
  (c9_phase_monotonicity c9wEnv).2.2 (by decide) rfl

/-- Claim C10: `combineChunkResults` requires its two arrays to have the same
length; on any length mismatch it throws
`Chunk and transcription arrays must have the same length` and produces no
combined string. -/
theorem c10_combine_length_guard (chunks : List ChunkMeta) (ts : List String)
    (h : chunks.length ≠ ts.length) :
    combineChunkResults chunks ts =
      .error "Chunk and transcription arrays must have the same length" := by
  unfold combineChunkResults
  rw [if_pos h]

theorem c10_witness :
    combineChunkResults [⟨5, 0, 0, 1⟩] [] =
      .error "Chunk and transcription arrays must have the same length" :=
  c10_combine_length_guard [⟨5, 0, 0, 1⟩] [] (by decide)
